import Mathlib

/-!
Shallow embedding of the pathology data transforms of
`sample-apps/pathology/lib/transforms.py` (MONAILabel), together with proofs
about their behaviour.

Images and label maps are grids: lists of rows.  Unsigned 8-bit pixel
arithmetic (`numpy` `uint8`) is modelled on `ℕ`/`ℤ` with explicit reduction
mod 256, and the floating-point percentage computations are modelled exactly
on `ℚ`.  External morphology collaborators (`remove_small_objects`,
`remove_small_holes`, `binary_fill_holes` of skimage/scipy) are not part of
the repository; they are modelled from the specification's description of
their interfaces (connected-component size filtering and hole filling with
4-connectivity).
-/

/-- An RGB pixel of a `uint8` image: three channel values in `0..255`. -/
structure RGB where
  r : ℕ
  g : ℕ
  b : ℕ

deriving instance DecidableEq for RGB

/-- Cell lookup in a boolean grid; out-of-range reads give `false`. -/
def getCellB (gr : List (List Bool)) (p : ℕ × ℕ) : Bool :=
  (gr.getD p.1 []).getD p.2 false

/-- Cell lookup in a `ℕ`-valued grid; out-of-range reads give `0`. -/
def getCellN (gr : List (List ℕ)) (p : ℕ × ℕ) : ℕ :=
  (gr.getD p.1 []).getD p.2 0

/-- All entries of a `ℕ`-valued grid, row by row (`tensor.ravel()`). -/
def gridEntries (gr : List (List ℕ)) : List ℕ := gr.flatten

/-- Number of stored cells of a grid (`ndarray.size` for a rectangular grid). -/
def gridCellCount {α : Type} (gr : List (List α)) : ℕ := (gr.map List.length).sum

/-- `np.count_nonzero` on a boolean grid: the number of `true` cells. -/
def countTrue (gr : List (List Bool)) : ℕ := (gr.map (fun row => (row.filter id).length)).sum

/-- `mask_percent` (transforms.py lines 111-117) on a 2-D boolean mask.
All call sites embedded in this file pass 2-D boolean masks, so only the
final branch of the Python function is modelled: the percentage of cells
that are *not* set, `100 - count_nonzero/size*100`, computed exactly in `ℚ`. -/
def mask_percent (gr : List (List Bool)) : ℚ :=
  100 - (countTrue gr : ℚ) / (gridCellCount gr : ℚ) * 100

/-- `uint8` subtraction `a - b` as numpy performs it on `uint8` arrays:
the difference wraps modulo 256 (and `abs` on `uint8` is the identity). -/
def sub8 (a b : ℕ) : ℕ := (((a : ℤ) - (b : ℤ)) % 256).toNat

/-- `filter_grays` (transforms.py lines 130-134).  The input image is a
`uint8` RGB array, so each channel difference is a wrapping `uint8`
subtraction (`sub8`); a pixel is kept (`true`) unless all three pairwise
differences are `≤ tolerance`. -/
def filter_grays (rgb : List (List RGB)) (tolerance : ℕ) : List (List Bool) :=
  rgb.map (List.map (fun px =>
    !(decide (sub8 px.r px.g ≤ tolerance) && decide (sub8 px.r px.b ≤ tolerance) &&
      decide (sub8 px.g px.b ≤ tolerance))))

/-- `LoadImagePatchd.pad_to_shape` (transforms.py lines 98-108).  The image
is `H × W × C` (rows of pixels of channels).  `np.pad` with pad widths
`[(0, m - H), (0, n - W), (0, 0)]` appends `n - W` zero pixels to each row
and then `m - H` zero rows; a negative pad width (image larger than the
requested shape) raises in numpy, modelled as `none`. -/
def pad_to_shape (img : List (List (List ℕ))) (shape : ℕ × ℕ) : Option (List (List (List ℕ))) :=
  let w := (img.getD 0 []).length
  let c := ((img.getD 0 []).getD 0 []).length
  if img.length ≤ shape.1 ∧ w ≤ shape.2 then
    some ((img.map (fun row => row ++ List.replicate (shape.2 - w) (List.replicate c 0))) ++
      List.replicate (shape.1 - img.length) (List.replicate shape.2 (List.replicate c 0)))
  else none

/-- The condition under which `LoadImagePatchd.__call__` (transforms.py
line 93) invokes `pad_to_shape`: padding is enabled, a tile size is present
(a `None`/absent tile size is falsy), and the loaded spatial shape `(h, w)`
differs from the tile size in either dimension. -/
def loader_pad_condition (padding : Bool) (tile_size : Option (ℕ × ℕ)) (h w : ℕ) : Bool :=
  padding && (match tile_size with
    | some t => decide (¬ h = t.1) || decide (¬ w = t.2)
    | none => false)

/-- `torch.max(torch.where(torch.logical_and(label > 0, label < 255), label, 0))`
(transforms.py lines 259 and 310): every entry strictly between 0 and 255 is
kept, every other entry replaced by 0, and the maximum over the (nonempty)
tensor is taken. -/
def detectMaskValue (label : List (List ℕ)) : ℕ :=
  (gridEntries (label.map (List.map (fun v => if 0 < v ∧ v < 255 then v else 0)))).foldl max 0

/-- `(label == v).type(torch.uint8)`: the indicator grid of value `v`. -/
def eqMask (label : List (List ℕ)) (v : ℕ) : List (List ℕ) :=
  label.map (List.map (fun x => if x = v then 1 else 0))

/-- The background mask `label == 0` as a `uint8` grid. -/
def bgMask (label : List (List ℕ)) : List (List ℕ) :=
  label.map (List.map (fun x => if x = 0 then 1 else 0))

/-- The single-key body of `SplitLabelExd.__call__` (transforms.py lines
257-261): read the label under `key`, store the detected-instance mask back
under `key` and the `label == 255` mask under `others`.  The `others`
assignment comes second and therefore wins if the two keys coincide. -/
def splitLabelKeyUpdate (others : String) (d : String → Option (List (List ℕ)))
    (key : String) : String → Option (List (List ℕ)) :=
  fun k2 =>
    if k2 = others then some (eqMask ((d key).getD []) 255)
    else if k2 = key then
      some (eqMask ((d key).getD []) (detectMaskValue ((d key).getD [])))
    else d k2

/-- `SplitLabelExd.__call__` (transforms.py lines 251-262).  With more than
one configured key the call logs an error and returns `None` (modelled as
`none`) without touching the record; otherwise it returns the updated copy
of the record. -/
def SplitLabelExd_call (keys : List String) (others : String)
    (d : String → Option (List (List ℕ))) : Option (String → Option (List (List ℕ))) :=
  if 1 < keys.length then none
  else some (keys.foldl (splitLabelKeyUpdate others) d)

/-- Result record of `FixNuclickClassd.__call__`: the image with the signal
channel appended, and the scalar class label. -/
structure FixResult where
  image : List (List (List ℕ))
  label : ℤ

/-- `FixNuclickClassd.__call__` (transforms.py lines 307-318) for a
channel-first 3-D image and a 2-D label: the detected-instance mask is
unsqueezed and concatenated on the channel axis, and the label field is
replaced by `mask_value + offset`. -/
def FixNuclickClassd_call (image : List (List (List ℕ))) (label : List (List ℕ))
    (offset : ℤ) : FixResult :=
  { image := image ++ [eqMask label (detectMaskValue label)]
    label := (detectMaskValue label : ℤ) + offset }

/-! ### Generic helper lemmas about grids and lists -/

lemma getD_of_length_le {α : Type} (l : List α) (n : ℕ) (d : α) (h : l.length ≤ n) :
    l.getD n d = d := by
  simp [List.getD_eq_getElem?_getD, List.getElem?_eq_none h]

lemma getD_of_lt {α : Type} (l : List α) (n : ℕ) (d : α) (h : n < l.length) :
    l.getD n d = l[n] := by
  simp [List.getD_eq_getElem?_getD, List.getElem?_eq_getElem h]

lemma getD_range_map {α : Type} (f : ℕ → α) (n i : ℕ) (d : α) (h : i < n) :
    (((List.range n).map f).getD i d) = f i := by
  have hlen : i < ((List.range n).map f).length := by simpa using h
  rw [getD_of_lt _ _ _ hlen]
  simp

lemma le_foldl_max_self (l : List ℕ) (a : ℕ) : a ≤ l.foldl max a := by
  induction l generalizing a with
  | nil => simp
  | cons y ys ih =>
    simp only [List.foldl_cons]
    exact le_trans (le_max_left a y) (ih _)

lemma foldl_max_le {l : List ℕ} {a x : ℕ} (hx : x ∈ l) : x ≤ l.foldl max a := by
  induction l generalizing a with
  | nil => cases hx
  | cons y ys ih =>
    simp only [List.foldl_cons]
    rcases List.mem_cons.mp hx with rfl | hmem
    · exact le_trans (le_max_right a x) (le_foldl_max_self _ _)
    · exact ih hmem

lemma foldl_max_mem (l : List ℕ) (a : ℕ) : l.foldl max a = a ∨ l.foldl max a ∈ l := by
  induction l generalizing a with
  | nil => left; rfl
  | cons y ys ih =>
    simp only [List.foldl_cons]
    rcases ih (max a y) with h | h
    · rw [h]
      rcases Nat.le_total a y with hay | hya
      · rw [max_eq_right hay]
        right
        exact List.mem_cons_self _ _
      · left
        exact max_eq_left hya
    · right
      exact List.mem_cons_of_mem _ h

lemma gridEntries_map (f : ℕ → ℕ) (gr : List (List ℕ)) :
    gridEntries (gr.map (List.map f)) = (gridEntries gr).map f := by
  simp [gridEntries, List.map_flatten]

lemma detectMaskValue_ge {label : List (List ℕ)} {v : ℕ} (hv : v ∈ gridEntries label)
    (h0 : 0 < v) (h255 : v < 255) : v ≤ detectMaskValue label := by
  unfold detectMaskValue
  rw [gridEntries_map]
  refine foldl_max_le ?_
  rw [List.mem_map]
  exact ⟨v, hv, by simp [h0, h255]⟩

lemma detectMaskValue_cases (label : List (List ℕ)) :
    detectMaskValue label = 0 ∨
      (detectMaskValue label ∈ gridEntries label ∧
        0 < detectMaskValue label ∧ detectMaskValue label < 255) := by
  have hdef : detectMaskValue label =
      ((gridEntries label).map fun v => if 0 < v ∧ v < 255 then v else 0).foldl max 0 := by
    unfold detectMaskValue
    rw [gridEntries_map]
  rcases foldl_max_mem ((gridEntries label).map fun v => if 0 < v ∧ v < 255 then v else 0) 0 with
    h | h
  · left
    rw [hdef, h]
  · rw [List.mem_map] at h
    obtain ⟨v, hv, hfv⟩ := h
    by_cases hc : 0 < v ∧ v < 255
    · rw [if_pos hc] at hfv
      right
      rw [hdef, ← hfv]
      exact ⟨hv, hc.1, hc.2⟩
    · rw [if_neg hc] at hfv
      left
      rw [hdef, ← hfv]

lemma detectMaskValue_eq_zero {label : List (List ℕ)}
    (h : ∀ v ∈ gridEntries label, ¬(0 < v ∧ v < 255)) : detectMaskValue label = 0 := by
  rcases detectMaskValue_cases label with h0 | ⟨hmem, h1, h2⟩
  · exact h0
  · exact absurd ⟨h1, h2⟩ (h _ hmem)

/-! ### Claim C3: `filter_grays` on `uint8` input -/

/-- C3: the claim states that `filter_grays` with tolerance 15 excludes a
pixel exactly when all exact integer channel differences have absolute value
at most 15.  The code subtracts `uint8` channels, which wraps modulo 256:
for the pixel `(r, g, b) = (0, 250, 250)` the wrapped differences are
`6, 6, 0`, all within tolerance, so the pixel is excluded (`false`) even
though the exact difference `|0 - 250| = 250` exceeds 15.  This evaluates
the embedded code at that failing input. -/
theorem C3_filter_grays_bug :
    filter_grays [[⟨0, 250, 250⟩]] 15 = [[false]] ∧ 15 < ((0 : ℤ) - 250).natAbs :=
  ⟨by decide, by decide⟩

/-! ### Claims C8, C9, C10: label splitting and class fixing -/

/-- C8: with exactly one configured key holding a label, `SplitLabelExd`
replaces the label by the detected-instance mask and stores the
`label == 255` mask under `others`; the detected value is the maximum label
value strictly between 0 and 255 (0 when there is none); on a label with
values `{0, 7, 255}` the detected value is 7 and the two masks are
`label == 7` and `label == 255`. -/
theorem C8_split_label :
    ∀ (k others : String) (d : String → Option (List (List ℕ))) (label : List (List ℕ)),
      k ≠ others → d k = some label →
      (∃ d2, SplitLabelExd_call [k] others d = some d2
        ∧ d2 k = some (eqMask label (detectMaskValue label))
        ∧ d2 others = some (eqMask label 255)
        ∧ ∀ k2, k2 ≠ k → k2 ≠ others → d2 k2 = d k2)
      ∧ (∀ v ∈ gridEntries label, 0 < v → v < 255 → v ≤ detectMaskValue label)
      ∧ (detectMaskValue label = 0 ∨
          (detectMaskValue label ∈ gridEntries label ∧ 0 < detectMaskValue label ∧
            detectMaskValue label < 255))
      ∧ detectMaskValue [[0, 7, 255]] = 7
      ∧ eqMask [[0, 7, 255]] 7 = [[0, 1, 0]]
      ∧ eqMask [[0, 7, 255]] 255 = [[0, 0, 1]] := by
  intro k others d label hko hd
  refine ⟨⟨splitLabelKeyUpdate others d k, ?_, ?_, ?_, ?_⟩, ?_, ?_, by decide, by decide,
    by decide⟩
  · simp [SplitLabelExd_call]
  · simp [splitLabelKeyUpdate, hko, hd]
  · simp [splitLabelKeyUpdate, hd]
  · intro k2 h1 h2
    simp [splitLabelKeyUpdate, h1, h2]
  · intro v hv h0 h255
    exact detectMaskValue_ge hv h0 h255
  · exact detectMaskValue_cases label

/-- C8 witness: the theorem applied to the record `{"label" ↦ [[0,7,255]]}`
with keys `["label"]` and others key `"others"`. -/
theorem C8_witness :
    ("label" : String) ≠ "others"
    ∧ ((fun s => if s = "label" then some [[0, 7, 255]] else none) "label"
        = some ([[0, 7, 255]] : List (List ℕ)))
    ∧ detectMaskValue [[0, 7, 255]] = 7 := by
  refine ⟨by decide, by decide, ?_⟩
  exact (C8_split_label "label" "others"
    (fun s => if s = "label" then some [[0, 7, 255]] else none) [[0, 7, 255]]
    (by decide) (by decide)).2.2.2.1

/-- C9: with more than one configured key, `SplitLabelExd.__call__` returns
`None` (and only then): there is no usable record in the result, and the
input record is untouched (the embedding is pure; the Python code only ever
writes into a fresh `dict(data)` copy, never into its argument). -/
theorem C9_multi_key :
    ∀ (keys : List String) (others : String) (d : String → Option (List (List ℕ))),
      SplitLabelExd_call keys others d = none ↔ 1 < keys.length := by
  intro keys others d
  unfold SplitLabelExd_call
  split_ifs with h
  · simp [h]
  · simp [h]

/-- C10: on a label with no value strictly between 0 and 255, the detected
instance value is 0, the produced instance mask is the background mask
`label == 0`, and `FixNuclickClassd` stores `0 + offset` (so `-1` for the
default offset) in the label field. -/
theorem C10_degenerate_label :
    ∀ (label : List (List ℕ)) (image : List (List (List ℕ))) (offset : ℤ),
      (∀ v ∈ gridEntries label, ¬(0 < v ∧ v < 255)) →
      detectMaskValue label = 0
      ∧ eqMask label (detectMaskValue label) = bgMask label
      ∧ (FixNuclickClassd_call image label offset).label = 0 + offset
      ∧ (FixNuclickClassd_call image label (-1)).label = -1
      ∧ (FixNuclickClassd_call image label offset).image = image ++ [bgMask label] := by
  intro label image offset h
  have h0 := detectMaskValue_eq_zero h
  refine ⟨h0, ?_, ?_, ?_, ?_⟩
  · rw [h0]
    rfl
  · simp [FixNuclickClassd_call, h0]
  · simp [FixNuclickClassd_call, h0]
  · show image ++ [eqMask label (detectMaskValue label)] = image ++ [bgMask label]
    rw [h0]
    rfl

/-- C10 witness: the theorem applied to the label `[[0, 255]]` (values 0 and
255 only) with a one-pixel image and the default offset `-1`. -/
theorem C10_witness :
    (∀ v ∈ gridEntries [[0, 255]], ¬(0 < v ∧ v < 255))
    ∧ (FixNuclickClassd_call [[[3]]] [[0, 255]] (-1)).label = -1 :=
  ⟨by decide, (C10_degenerate_label [[0, 255]] [[[3]]] (-1) (by decide)).2.2.2.1⟩

/-! ### Claim C7: `pad_to_shape` and the loader's padding condition -/

/-- C7 counterexample: the claim states the loader applies padding only when
the loaded region is smaller in a spatial dimension, never when it is equal
or larger.  For a 2×2 image and tile size (1, 1) the loader's condition
fires (the shapes differ) although the region is strictly larger, and the
padding call itself fails (`np.pad` rejects negative pad widths). -/
theorem C7_counterexample :
    loader_pad_condition true (some (1, 1)) 2 2 = true
    ∧ ¬(2 < 1 ∨ 2 < 1)
    ∧ pad_to_shape [[[9], [9]], [[9], [9]]] (1, 1) = none :=
  ⟨by decide, by decide, by decide⟩

/-- C7 (amended): for a rectangular image that fits inside the requested
shape, `pad_to_shape` returns a grid of exactly the requested spatial shape
whose top-left region is the original content and whose new region is zero
pixels; when the image is larger in either spatial dimension the padding
fails (`none`); and the loader attempts padding exactly when the loaded
shape *differs* from the tile size in either spatial dimension (not only
when it is smaller). -/
theorem C7_pad_amended :
    (∀ (img : List (List (List ℕ))) (m n : ℕ),
      (∀ row ∈ img, row.length = (img.getD 0 []).length) →
      img.length ≤ m → (img.getD 0 []).length ≤ n →
      ∃ out, pad_to_shape img (m, n) = some out
        ∧ out.length = m
        ∧ (∀ row ∈ out, row.length = n)
        ∧ (∀ i j, i < img.length → j < (img.getD 0 []).length →
            (out.getD i []).getD j [] = (img.getD i []).getD j [])
        ∧ (∀ i j, i < m → j < n → ¬(i < img.length ∧ j < (img.getD 0 []).length) →
            (out.getD i []).getD j [] = List.replicate (((img.getD 0 []).getD 0 []).length) 0))
    ∧ (∀ (img : List (List (List ℕ))) (m n : ℕ),
        m < img.length ∨ n < (img.getD 0 []).length → pad_to_shape img (m, n) = none)
    ∧ (∀ (padding : Bool) (ts : Option (ℕ × ℕ)) (h w : ℕ),
        loader_pad_condition padding ts h w = true ↔
          padding = true ∧ ∃ t, ts = some t ∧ (h ≠ t.1 ∨ w ≠ t.2)) := by
  refine ⟨?_, ?_, ?_⟩
  · intro img m n hrect hh hw
    set w := (img.getD 0 []).length with hwdef
    set c := ((img.getD 0 []).getD 0 []).length with hcdef
    set zp : List ℕ := List.replicate c 0 with hzp
    set fr : List (List ℕ) → List (List ℕ) :=
      fun row => row ++ List.replicate (n - w) zp with hfr
    set tailRows : List (List (List ℕ)) :=
      List.replicate (m - img.length) (List.replicate n zp) with htail
    refine ⟨img.map fr ++ tailRows, ?_, ?_, ?_, ?_, ?_⟩
    · show pad_to_shape img (m, n) = _
      unfold pad_to_shape
      rw [if_pos ⟨hh, hw⟩]
    · rw [List.length_append, List.length_map, htail, List.length_replicate]
      omega
    · intro row hrow
      rcases List.mem_append.mp hrow with hmem | hmem
      · rw [List.mem_map] at hmem
        obtain ⟨r0, hr0, hr0eq⟩ := hmem
        rw [← hr0eq, hfr]
        have := hrect r0 hr0
        rw [List.length_append, this, List.length_replicate]
        omega
      · rw [htail] at hmem
        rw [List.eq_of_mem_replicate hmem, List.length_replicate]
    · intro i j hi hj
      have hilen : i < (img.map fr).length := by simpa using hi
      rw [List.getD_append _ _ _ _ hilen, getD_of_lt _ _ _ hilen, List.getElem_map]
      have hrowlen : j < (img[i]).length := by
        rw [hrect img[i] (List.getElem_mem hi)]
        exact hj
      show ((img[i] ++ List.replicate (n - w) zp).getD j []) = _
      rw [List.getD_append _ _ _ _ hrowlen, getD_of_lt _ _ _ hi]
    · intro i j hi hj hnot
      by_cases hii : i < img.length
      · have hjj : w ≤ j := by
          rcases Nat.lt_or_ge j w with hlt | hge
          · exact absurd ⟨hii, hlt⟩ hnot
          · exact hge
        have hilen : i < (img.map fr).length := by simpa using hii
        rw [List.getD_append _ _ _ _ hilen, getD_of_lt _ _ _ hilen, List.getElem_map]
        show ((img[i] ++ List.replicate (n - w) zp).getD j []) = zp
        have hrl : (img[i]).length = w := hrect img[i] (List.getElem_mem hii)
        rw [List.getD_append_right _ _ _ _ (by omega)]
        have hjlt : j - (img[i]).length < (List.replicate (n - w) zp).length := by
          rw [List.length_replicate]
          omega
        rw [getD_of_lt _ _ _ hjlt, List.getElem_replicate]
      · have hilen : (img.map fr).length ≤ i := by simpa using Nat.le_of_not_lt hii
        rw [List.getD_append_right _ _ _ _ hilen, htail, List.length_map]
        rw [List.length_map] at hilen
        have hlt : i - img.length <
            (List.replicate (m - img.length) (List.replicate n zp)).length := by
          rw [List.length_replicate]
          omega
        rw [getD_of_lt _ _ _ hlt, List.getElem_replicate]
        have hjlt : j < (List.replicate n zp).length := by
          rw [List.length_replicate]; exact hj
        rw [getD_of_lt _ _ _ hjlt, List.getElem_replicate]
  · intro img m n hbig
    unfold pad_to_shape
    rw [if_neg (by omega)]
  · intro padding ts h w
    cases ts with
    | none => simp [loader_pad_condition]
    | some t =>
      simp only [loader_pad_condition, Bool.and_eq_true, Bool.or_eq_true, decide_eq_true_eq]
      constructor
      · rintro ⟨hp, hne⟩
        exact ⟨hp, t, rfl, hne⟩
      · rintro ⟨hp, t2, ht2, hne⟩
        cases ht2
        exact ⟨hp, hne⟩

/-- C7 witness: the padding part of the theorem applied to the 1×1×1 image
`[[[7]]]` padded to shape (2, 2). -/
theorem C7_witness :
    (∀ row ∈ ([[[7]]] : List (List (List ℕ))), row.length = (([[[7]]] : List (List (List ℕ))).getD 0 []).length)
    ∧ ∃ out, pad_to_shape [[[7]]] (2, 2) = some out
        ∧ out.length = 2
        ∧ (∀ row ∈ out, row.length = 2)
        ∧ (∀ i j, i < ([[[7]]] : List (List (List ℕ))).length →
            j < (([[[7]]] : List (List (List ℕ))).getD 0 []).length →
            (out.getD i []).getD j [] = ((([[[7]]] : List (List (List ℕ))).getD i []).getD j []))
        ∧ (∀ i j, i < 2 → j < 2 →
            ¬(i < ([[[7]]] : List (List (List ℕ))).length ∧
              j < (([[[7]]] : List (List (List ℕ))).getD 0 []).length) →
            (out.getD i []).getD j [] =
              List.replicate (((([[[7]]] : List (List (List ℕ))).getD 0 []).getD 0 []).length) 0) :=
  ⟨by decide, C7_pad_amended.1 [[[7]]] 2 2 (by decide) (by decide) (by decide)⟩

/-! ### The green-channel filter (transforms.py lines 120-127) -/

/-- The single-threshold green-channel mask `(g < green_thresh) & (g > 0)`
computed by `filter_green_channel` before its overmask check. -/
def greenMask (img : List (List RGB)) (green_thresh : ℤ) : List (List Bool) :=
  img.map (List.map (fun px => decide ((px.g : ℤ) < green_thresh) && decide (0 < px.g)))

/-- `math.ceil((255 - green_thresh) / 2 + green_thresh)` with exact (true
division) arithmetic. -/
def newGreenThresh (green_thresh : ℤ) : ℤ :=
  ⌈((255 : ℚ) - (green_thresh : ℚ)) / 2 + (green_thresh : ℚ)⌉

lemma newGreenThresh_gt {t : ℤ} (h : t < 255) : t < newGreenThresh t := by
  unfold newGreenThresh
  rw [Int.lt_ceil]
  have ht : (t : ℚ) < 255 := by exact_mod_cast h
  linarith

lemma newGreenThresh_le {t : ℤ} (h : t ≤ 255) : newGreenThresh t ≤ 255 := by
  unfold newGreenThresh
  rw [Int.ceil_le]
  have ht : (t : ℚ) ≤ 255 := by exact_mod_cast h
  push_cast
  linarith

/-- `filter_green_channel` (transforms.py lines 120-127): compute the
single-threshold mask; if at least `overmask_thresh` percent of the pixels
are *not* in the mask, the threshold is below 255 and `avoid_overmask` is
set, retry with the raised threshold, else return the mask. -/
def filter_green_channel (img : List (List RGB)) (green_thresh : ℤ)
    (avoid_overmask : Bool) (overmask_thresh : ℚ) : List (List Bool) :=
  if h : overmask_thresh ≤ mask_percent (greenMask img green_thresh) ∧
      green_thresh < 255 ∧ avoid_overmask = true then
    filter_green_channel img (newGreenThresh green_thresh) avoid_overmask overmask_thresh
  else greenMask img green_thresh
termination_by ((255 : ℤ) - green_thresh).toNat
decreasing_by
  have h1 := newGreenThresh_gt h.2.1
  have h2 := newGreenThresh_le (le_of_lt h.2.1)
  omega

/-- The threshold at which the recursion of `filter_green_channel` stops:
the same recursion, returning the final threshold instead of the mask. -/
def finalGreenThresh (img : List (List RGB)) (green_thresh : ℤ)
    (avoid_overmask : Bool) (overmask_thresh : ℚ) : ℤ :=
  if h : overmask_thresh ≤ mask_percent (greenMask img green_thresh) ∧
      green_thresh < 255 ∧ avoid_overmask = true then
    finalGreenThresh img (newGreenThresh green_thresh) avoid_overmask overmask_thresh
  else green_thresh
termination_by ((255 : ℤ) - green_thresh).toNat
decreasing_by
  have h1 := newGreenThresh_gt h.2.1
  have h2 := newGreenThresh_le (le_of_lt h.2.1)
  omega

lemma green_master :
    ∀ (fuel : ℕ) (img : List (List RGB)) (t : ℤ) (ao : Bool) (ot : ℚ),
      ((255 : ℤ) - t).toNat ≤ fuel →
      filter_green_channel img t ao ot = greenMask img (finalGreenThresh img t ao ot)
      ∧ t ≤ finalGreenThresh img t ao ot
      ∧ (finalGreenThresh img t ao ot = t ∨
          (t < finalGreenThresh img t ao ot ∧ finalGreenThresh img t ao ot ≤ 255))
      ∧ (finalGreenThresh img t ao ot ≠ t →
          (ot ≤ mask_percent (greenMask img t) ∧ t < 255 ∧ ao = true))
      ∧ ((ot ≤ mask_percent (greenMask img t) ∧ t < 255 ∧ ao = true) →
          finalGreenThresh img t ao ot ≠ t) := by
  intro fuel
  induction fuel with
  | zero =>
    intro img t ao ot hf
    have hge : (255 : ℤ) ≤ t := by omega
    have hcond : ¬(ot ≤ mask_percent (greenMask img t) ∧ t < 255 ∧ ao = true) := by
      rintro ⟨-, h2, -⟩
      omega
    rw [filter_green_channel, finalGreenThresh, dif_neg hcond, dif_neg hcond]
    exact ⟨rfl, le_rfl, Or.inl rfl, fun hne => absurd rfl hne, fun hc => absurd hc hcond⟩
  | succ n ih =>
    intro img t ao ot hf
    by_cases hc : ot ≤ mask_percent (greenMask img t) ∧ t < 255 ∧ ao = true
    · have hgt := newGreenThresh_gt hc.2.1
      have hle := newGreenThresh_le (le_of_lt hc.2.1)
      have hfuel : ((255 : ℤ) - newGreenThresh t).toNat ≤ n := by omega
      obtain ⟨ih1, ih2, ih3, _, _⟩ := ih img (newGreenThresh t) ao ot hfuel
      rw [filter_green_channel, finalGreenThresh, dif_pos hc, dif_pos hc]
      refine ⟨ih1, by omega, Or.inr ⟨by omega, ?_⟩, fun _ => hc, fun _ => by omega⟩
      rcases ih3 with he | ⟨-, hl⟩
      · rw [he]; exact hle
      · exact hl
    · rw [filter_green_channel, finalGreenThresh, dif_neg hc, dif_neg hc]
      exact ⟨rfl, le_rfl, Or.inl rfl, fun hne => absurd rfl hne, fun h => absurd h hc⟩

lemma filter_green_channel_eq (img : List (List RGB)) (t : ℤ) (ao : Bool) (ot : ℚ) :
    filter_green_channel img t ao ot = greenMask img (finalGreenThresh img t ao ot) :=
  (green_master ((255 - t).toNat) img t ao ot le_rfl).1

lemma finalGreenThresh_ge (img : List (List RGB)) (t : ℤ) (ao : Bool) (ot : ℚ) :
    t ≤ finalGreenThresh img t ao ot :=
  (green_master ((255 - t).toNat) img t ao ot le_rfl).2.1

lemma finalGreenThresh_cases (img : List (List RGB)) (t : ℤ) (ao : Bool) (ot : ℚ) :
    finalGreenThresh img t ao ot = t ∨
      (t < finalGreenThresh img t ao ot ∧ finalGreenThresh img t ao ot ≤ 255) :=
  (green_master ((255 - t).toNat) img t ao ot le_rfl).2.2.1

lemma finalGreenThresh_ne_iff (img : List (List RGB)) (t : ℤ) (ao : Bool) (ot : ℚ) :
    finalGreenThresh img t ao ot ≠ t ↔
      (ot ≤ mask_percent (greenMask img t) ∧ t < 255 ∧ ao = true) :=
  ⟨(green_master ((255 - t).toNat) img t ao ot le_rfl).2.2.2.1,
    (green_master ((255 - t).toNat) img t ao ot le_rfl).2.2.2.2⟩

/-- Pixel lookup in an RGB image. -/
def getPx (img : List (List RGB)) (p : ℕ × ℕ) : Option RGB :=
  (img[p.1]?).bind (fun row => row[p.2]?)

lemma getCellB_greenMask {img : List (List RGB)} {t : ℤ} {p : ℕ × ℕ} {px : RGB}
    (h : getPx img p = some px) :
    getCellB (greenMask img t) p = (decide ((px.g : ℤ) < t) && decide (0 < px.g)) := by
  unfold getPx at h
  cases hrow : img[p.1]? with
  | none => rw [hrow] at h; cases h
  | some row =>
    rw [hrow] at h
    rw [Option.some_bind] at h
    obtain ⟨h1, hrow'⟩ := List.getElem?_eq_some.mp hrow
    obtain ⟨h2, hpx⟩ := List.getElem?_eq_some.mp h
    unfold getCellB greenMask
    have hl1 : p.1 < (img.map (List.map (fun px =>
        decide ((px.g : ℤ) < t) && decide (0 < px.g)))).length := by simpa using h1
    rw [getD_of_lt _ _ _ hl1, List.getElem_map, hrow']
    have hl2 : p.2 < (row.map (fun px =>
        decide ((px.g : ℤ) < t) && decide (0 < px.g))).length := by simpa using h2
    rw [getD_of_lt _ _ _ hl2, List.getElem_map, hpx]

/-! ### Claim C4: the overmask retry condition of `filter_green_channel` -/

/-- The 1×16 test image for C4: one pixel with green value 100, fifteen with
green value 220.  At threshold 200 exactly one pixel is tissue, so the
tissue fraction is 6.25 % and `mask_percent` is 93.75 %. -/
def img16C4 : List (List RGB) :=
  [[⟨0, 100, 0⟩, ⟨0, 220, 0⟩, ⟨0, 220, 0⟩, ⟨0, 220, 0⟩, ⟨0, 220, 0⟩, ⟨0, 220, 0⟩,
    ⟨0, 220, 0⟩, ⟨0, 220, 0⟩, ⟨0, 220, 0⟩, ⟨0, 220, 0⟩, ⟨0, 220, 0⟩, ⟨0, 220, 0⟩,
    ⟨0, 220, 0⟩, ⟨0, 220, 0⟩, ⟨0, 220, 0⟩, ⟨0, 220, 0⟩]]

/-- C4 counterexample: the claim says `filter_green_channel` retries exactly
when the *tissue* fraction exceeds the overmask limit (default 90 %).  On
`img16C4` the tissue fraction at the default threshold 200 is 6.25 %, so by
the claim no retry happens and the result is the threshold-200 mask; but the
code retries (it triggers on the fraction of pixels *not* marked tissue,
93.75 % ≥ 90) and returns the all-true threshold-228 mask instead. -/
theorem C4_counterexample :
    filter_green_channel img16C4 200 true 90 ≠ greenMask img16C4 200
    ∧ ¬((90 : ℚ) < 100 - mask_percent (greenMask img16C4 200)) := by
  have hmask : greenMask img16C4 200 =
      [[true, false, false, false, false, false, false, false, false, false, false, false,
        false, false, false, false]] := by decide
  have hmp : mask_percent (greenMask img16C4 200) = 375 / 4 := by
    rw [hmask]
    show (100 : ℚ) - (countTrue _ : ℚ) / (gridCellCount _ : ℚ) * 100 = 375 / 4
    norm_num [countTrue, gridCellCount]
  have hnt : newGreenThresh 200 = 228 := by
    unfold newGreenThresh
    rw [show ((255 : ℚ) - (200 : ℤ)) / 2 + (200 : ℤ) = 455 / 2 by push_cast; ring]
    rw [Int.ceil_eq_iff]
    constructor <;> norm_num
  have hmask2 : greenMask img16C4 228 =
      [[true, true, true, true, true, true, true, true, true, true, true, true,
        true, true, true, true]] := by decide
  have hmp2 : mask_percent (greenMask img16C4 228) = 0 := by
    rw [hmask2]
    show (100 : ℚ) - (countTrue _ : ℚ) / (gridCellCount _ : ℚ) * 100 = 0
    norm_num [countTrue, gridCellCount]
  constructor
  · rw [filter_green_channel,
      dif_pos ⟨by rw [hmp]; norm_num, by norm_num, rfl⟩, hnt, filter_green_channel,
      dif_neg (by rw [hmp2]; rintro ⟨h1, -, -⟩; norm_num at h1), hmask, hmask2]
    decide
  · rw [hmp]
    norm_num

/-- C4 (amended): `filter_green_channel` returns the single-threshold mask
at the final threshold of the retry recursion; a pixel is marked tissue at
threshold `t` exactly when its green value lies strictly between 0 and `t`;
and the recursion retries (the final threshold moves) exactly when the
fraction of pixels *not* marked tissue at the current threshold is at least
the overmask limit, the threshold is below 255, and `avoid_overmask` is
set. -/
theorem C4_green_channel_amended :
    (∀ (img : List (List RGB)) (t : ℤ) (ao : Bool) (ot : ℚ),
      filter_green_channel img t ao ot = greenMask img (finalGreenThresh img t ao ot))
    ∧ (∀ (img : List (List RGB)) (t : ℤ) (p : ℕ × ℕ) (px : RGB),
        getPx img p = some px →
        (getCellB (greenMask img t) p = true ↔ (0 < px.g ∧ (px.g : ℤ) < t)))
    ∧ (∀ (img : List (List RGB)) (t : ℤ) (ao : Bool) (ot : ℚ),
        finalGreenThresh img t ao ot ≠ t ↔
          (ot ≤ mask_percent (greenMask img t) ∧ t < 255 ∧ ao = true)) := by
  refine ⟨filter_green_channel_eq, ?_, finalGreenThresh_ne_iff⟩
  intro img t p px h
  rw [getCellB_greenMask h]
  simp only [Bool.and_eq_true, decide_eq_true_eq]
  tauto

/-- C4 witness: the pixel characterization applied to a concrete one-pixel
image with green value 5 at threshold 200. -/
theorem C4_witness :
    getPx [[RGB.mk 0 5 0]] (0, 0) = some (RGB.mk 0 5 0)
    ∧ (getCellB (greenMask [[RGB.mk 0 5 0]] 200) (0, 0) = true ↔
        (0 < (RGB.mk 0 5 0).g ∧ ((RGB.mk 0 5 0).g : ℤ) < 200)) :=
  ⟨by decide, C4_green_channel_amended.2.1 [[RGB.mk 0 5 0]] 200 (0, 0) (RGB.mk 0 5 0) (by decide)⟩

/-! ### Connected components of a boolean grid (4-connectivity)

Executable flood fill (`reach`) together with its characterization through
the reflexive-transitive closure of foreground adjacency (`GridConn`).
This underlies the models of the morphology collaborators. -/

/-- 4-neighbourhood adjacency of grid positions. -/
def adjPos (p q : ℕ × ℕ) : Bool :=
  decide ((p.1 = q.1 ∧ (p.2 + 1 = q.2 ∨ q.2 + 1 = p.2)) ∨
    (p.2 = q.2 ∧ (p.1 + 1 = q.1 ∨ q.1 + 1 = p.1)))

lemma adjPos_symm (p q : ℕ × ℕ) : adjPos p q = adjPos q p := by
  rcases p with ⟨a, b⟩
  rcases q with ⟨c, d⟩
  simp only [adjPos, decide_eq_decide]
  omega

/-- All in-range positions of a grid, row by row. -/
def allPos {α : Type} (gr : List (List α)) : List (ℕ × ℕ) :=
  (List.range gr.length).flatMap
    (fun i => (List.range (gr.getD i []).length).map (fun j => (i, j)))

lemma mem_allPos {α : Type} (gr : List (List α)) (p : ℕ × ℕ) :
    p ∈ allPos gr ↔ p.1 < gr.length ∧ p.2 < (gr.getD p.1 []).length := by
  unfold allPos
  rw [List.mem_flatMap]
  constructor
  · rintro ⟨i, hi, hp⟩
    rw [List.mem_map] at hp
    obtain ⟨j, hj, rfl⟩ := hp
    rw [List.mem_range] at hi hj
    exact ⟨hi, hj⟩
  · rintro ⟨h1, h2⟩
    refine ⟨p.1, List.mem_range.mpr h1, List.mem_map.mpr ⟨p.2, List.mem_range.mpr h2, ?_⟩⟩
    simp

lemma nodup_allPos {α : Type} (gr : List (List α)) : (allPos gr).Nodup := by
  unfold allPos
  rw [List.nodup_flatMap]
  constructor
  · intro i _
    exact (List.nodup_range _).map (fun a b hab => by simpa using hab)
  · have : List.Pairwise (· ≠ ·) (List.range gr.length) := (List.nodup_range _)
    refine this.imp ?_
    intro i j hij q hqi hqj
    rw [List.mem_map] at hqi hqj
    obtain ⟨a, -, ha⟩ := hqi
    obtain ⟨b, -, hb⟩ := hqj
    apply hij
    rw [← ha] at hb
    exact (((Prod.mk.injEq _ _ _ _).mp hb).1).symm

/-- All set cells of a boolean grid. -/
def fgCells (gr : List (List Bool)) : List (ℕ × ℕ) :=
  (allPos gr).filter (fun p => getCellB gr p)

lemma getCellB_bounds {gr : List (List Bool)} {p : ℕ × ℕ} (h : getCellB gr p = true) :
    p.1 < gr.length ∧ p.2 < (gr.getD p.1 []).length := by
  unfold getCellB at h
  constructor
  · by_contra h1
    rw [getD_of_length_le _ _ _ (Nat.le_of_not_lt h1)] at h
    simp at h
  · by_contra h2
    rw [getD_of_length_le _ _ _ (Nat.le_of_not_lt h2)] at h
    cases h

lemma mem_fgCells {gr : List (List Bool)} {p : ℕ × ℕ} :
    p ∈ fgCells gr ↔ getCellB gr p = true := by
  unfold fgCells
  rw [List.mem_filter, mem_allPos]
  constructor
  · rintro ⟨-, h⟩
    exact h
  · intro h
    exact ⟨getCellB_bounds h, h⟩

lemma nodup_fgCells (gr : List (List Bool)) : (fgCells gr).Nodup :=
  List.Nodup.filter _ (nodup_allPos gr)

/-- One flood-fill step: the set cells adjacent to the visited list that are
not yet visited. -/
def newCells (gr : List (List Bool)) (vs : List (ℕ × ℕ)) : List (ℕ × ℕ) :=
  (fgCells gr).filter (fun q => !(decide (q ∈ vs)) && vs.any (fun v => adjPos v q))

def stepReach (gr : List (List Bool)) (vs : List (ℕ × ℕ)) : List (ℕ × ℕ) :=
  vs ++ newCells gr vs

lemma stepReach_eq (gr : List (List Bool)) (vs : List (ℕ × ℕ)) :
    stepReach gr vs = vs ++ newCells gr vs := rfl

/-- The connected component of `p` in `gr`, computed by iterating the
flood-fill step as many times as there are set cells. -/
def reach (gr : List (List Bool)) (p : ℕ × ℕ) : List (ℕ × ℕ) :=
  (stepReach gr)^[(fgCells gr).length] [p]

/-- Size of the connected component of `p`. -/
def compCard (gr : List (List Bool)) (p : ℕ × ℕ) : ℕ := (reach gr p).length

/-- One step of foreground connectivity: both cells set and 4-adjacent. -/
def connStep (gr : List (List Bool)) (a b : ℕ × ℕ) : Prop :=
  getCellB gr a = true ∧ getCellB gr b = true ∧ adjPos a b = true

/-- Connectivity inside the foreground of a grid. -/
def GridConn (gr : List (List Bool)) : ℕ × ℕ → ℕ × ℕ → Prop :=
  Relation.ReflTransGen (connStep gr)

lemma gridConn_symm (gr : List (List Bool)) : Symmetric (GridConn gr) :=
  Relation.ReflTransGen.symmetric
    (fun _ _ hab => ⟨hab.2.1, hab.1, by rw [adjPos_symm]; exact hab.2.2⟩)

lemma gridConn_fg_right {gr : List (List Bool)} {p q : ℕ × ℕ}
    (hp : getCellB gr p = true) (h : GridConn gr p q) : getCellB gr q = true := by
  induction h with
  | refl => exact hp
  | tail _ hstep _ => exact hstep.2.1

lemma mem_iterate_start (gr : List (List Bool)) (p : ℕ × ℕ) :
    ∀ n, p ∈ (stepReach gr)^[n] [p] := by
  intro n
  induction n with
  | zero => exact List.mem_cons_self _ _
  | succ n ih =>
    rw [Function.iterate_succ_apply']
    exact List.mem_append.mpr (Or.inl ih)

lemma iterate_subset_fgCells {gr : List (List Bool)} {p : ℕ × ℕ}
    (hp : getCellB gr p = true) :
    ∀ n q, q ∈ (stepReach gr)^[n] [p] → q ∈ fgCells gr := by
  intro n
  induction n with
  | zero =>
    intro q hq
    rcases List.mem_cons.mp hq with rfl | hq
    · exact mem_fgCells.mpr hp
    · cases hq
  | succ n ih =>
    intro q hq
    rw [Function.iterate_succ_apply'] at hq
    rcases List.mem_append.mp hq with hq | hq
    · exact ih q hq
    · exact (List.mem_filter.mp hq).1

lemma iterate_nodup (gr : List (List Bool)) (p : ℕ × ℕ) :
    ∀ n, ((stepReach gr)^[n] [p]).Nodup := by
  intro n
  induction n with
  | zero => simp
  | succ n ih =>
    rw [Function.iterate_succ_apply', stepReach_eq]
    rw [List.nodup_append]
    refine ⟨ih, List.Nodup.filter _ (nodup_fgCells gr), ?_⟩
    intro a ha hb
    have := (List.mem_filter.mp hb).2
    rw [Bool.and_eq_true, Bool.not_eq_true'] at this
    have hnot := this.1
    rw [decide_eq_false_iff_not] at hnot
    exact hnot ha

lemma iterate_sound {gr : List (List Bool)} {p : ℕ × ℕ} (hp : getCellB gr p = true) :
    ∀ n q, q ∈ (stepReach gr)^[n] [p] → GridConn gr p q := by
  intro n
  induction n with
  | zero =>
    intro q hq
    rcases List.mem_cons.mp hq with rfl | hq
    · exact Relation.ReflTransGen.refl
    · cases hq
  | succ n ih =>
    intro q hq
    rw [Function.iterate_succ_apply'] at hq
    rcases List.mem_append.mp hq with hq | hq
    · exact ih q hq
    · have hfg := mem_fgCells.mp (List.mem_filter.mp hq).1
      have hpred := (List.mem_filter.mp hq).2
      rw [Bool.and_eq_true, List.any_eq_true] at hpred
      obtain ⟨v, hv, hadj⟩ := hpred.2
      have hvfg := mem_fgCells.mp (iterate_subset_fgCells hp n v hv)
      exact Relation.ReflTransGen.tail (ih v hv) ⟨hvfg, hfg, hadj⟩

lemma iterate_stable (gr : List (List Bool)) (p : ℕ × ℕ) {n : ℕ}
    (h : newCells gr ((stepReach gr)^[n] [p]) = []) :
    ∀ k, (stepReach gr)^[n + k] [p] = (stepReach gr)^[n] [p] := by
  intro k
  induction k with
  | zero => rfl
  | succ k ih =>
    rw [show n + (k + 1) = (n + k) + 1 by omega, Function.iterate_succ_apply', ih,
      stepReach_eq, h, List.append_nil]

lemma iterate_length_lower {gr : List (List Bool)} {p : ℕ × ℕ} :
    ∀ k, (∀ m, m < k → newCells gr ((stepReach gr)^[m] [p]) ≠ []) →
      k + 1 ≤ ((stepReach gr)^[k] [p]).length := by
  intro k
  induction k with
  | zero => intro _; simp
  | succ k ih =>
    intro h
    have hk := ih (fun m hm => h m (by omega))
    have hne := h k (by omega)
    rw [Function.iterate_succ_apply', stepReach_eq, List.length_append]
    have : 0 < (newCells gr ((stepReach gr)^[k] [p])).length := List.length_pos.mpr hne
    omega

lemma reach_newCells_nil {gr : List (List Bool)} {p : ℕ × ℕ}
    (hp : getCellB gr p = true) : newCells gr (reach gr p) = [] := by
  by_cases hfix : ∃ m, m < (fgCells gr).length ∧ newCells gr ((stepReach gr)^[m] [p]) = []
  · obtain ⟨m, hm, hfixm⟩ := hfix
    unfold reach
    rw [show (fgCells gr).length = m + ((fgCells gr).length - m) by omega,
      iterate_stable gr p hfixm]
    exact hfixm
  · push_neg at hfix
    exfalso
    have hlow := iterate_length_lower (fgCells gr).length (fun m hm => hfix m hm)
    have hsub : (stepReach gr)^[(fgCells gr).length] [p] ⊆ fgCells gr :=
      fun q hq => iterate_subset_fgCells hp _ q hq
    have hle : ((stepReach gr)^[(fgCells gr).length] [p]).length ≤ (fgCells gr).length :=
      (List.subperm_of_subset (iterate_nodup gr p _) hsub).length_le
    omega

lemma mem_reach_of_gridConn {gr : List (List Bool)} {p q : ℕ × ℕ}
    (hp : getCellB gr p = true) (h : GridConn gr p q) : q ∈ reach gr p := by
  induction h with
  | refl => exact mem_iterate_start gr p _
  | tail hpr hstep ih =>
    rename_i r q'
    by_cases hmem : q' ∈ reach gr p
    · exact hmem
    · exfalso
      have hclosed := reach_newCells_nil hp
      unfold newCells at hclosed
      rw [List.filter_eq_nil_iff] at hclosed
      refine hclosed q' (mem_fgCells.mpr hstep.2.1) ?_
      rw [Bool.and_eq_true, List.any_eq_true]
      refine ⟨by simpa using hmem, r, ih, hstep.2.2⟩

lemma mem_reach_iff {gr : List (List Bool)} {p : ℕ × ℕ} (hp : getCellB gr p = true)
    (q : ℕ × ℕ) : q ∈ reach gr p ↔ GridConn gr p q :=
  ⟨iterate_sound hp _ q, mem_reach_of_gridConn hp⟩

lemma reach_nodup (gr : List (List Bool)) (p : ℕ × ℕ) : (reach gr p).Nodup :=
  iterate_nodup gr p _

lemma compCard_congr {gr : List (List Bool)} {p q : ℕ × ℕ}
    (hp : getCellB gr p = true) (h : GridConn gr p q) :
    compCard gr p = compCard gr q := by
  have hq := gridConn_fg_right hp h
  have hiff : ∀ x, x ∈ reach gr p ↔ x ∈ reach gr q := by
    intro x
    rw [mem_reach_iff hp, mem_reach_iff hq]
    constructor
    · intro hx
      exact Relation.ReflTransGen.trans (gridConn_symm gr h) hx
    · intro hx
      exact Relation.ReflTransGen.trans h hx
  exact List.Perm.length_eq
    ((List.perm_ext_iff_of_nodup (reach_nodup gr p) (reach_nodup gr q)).mpr hiff)

/-! ### `remove_small_objects` and its stability under re-application -/

/-- Modelled from the spec: the morphology collaborator
`remove_small_objects(mask, min_size)` (spec §6, §4.2, §4.3; skimage) is not
part of this repository.  Per the spec it removes from a boolean mask every
connected component (4-connectivity) with fewer than `min_size` cells: a
cell survives iff it is set and its component has at least `min_size`
cells. -/
def remove_small_objects (gr : List (List Bool)) (min_size : ℕ) : List (List Bool) :=
  (List.range gr.length).map (fun i =>
    (List.range (gr.getD i []).length).map (fun j =>
      getCellB gr (i, j) && decide (min_size ≤ compCard gr (i, j))))

lemma remove_small_objects_length (gr : List (List Bool)) (s : ℕ) :
    (remove_small_objects gr s).length = gr.length := by
  simp [remove_small_objects]

lemma remove_small_objects_row (gr : List (List Bool)) (s : ℕ) {i : ℕ}
    (hi : i < gr.length) :
    (remove_small_objects gr s).getD i [] = (List.range (gr.getD i []).length).map
      (fun j => getCellB gr (i, j) && decide (s ≤ compCard gr (i, j))) := by
  unfold remove_small_objects
  exact getD_range_map _ _ _ _ hi

lemma getCellB_remove_small_objects (gr : List (List Bool)) (s : ℕ) (p : ℕ × ℕ) :
    getCellB (remove_small_objects gr s) p =
      (getCellB gr p && decide (s ≤ compCard gr p)) := by
  by_cases h1 : p.1 < gr.length
  · show ((remove_small_objects gr s).getD p.1 []).getD p.2 false = _
    rw [remove_small_objects_row gr s h1]
    by_cases h2 : p.2 < (gr.getD p.1 []).length
    · rw [getD_range_map _ _ _ _ h2]
    · rw [getD_of_length_le _ _ _ (by simpa using Nat.le_of_not_lt h2)]
      have : getCellB gr p = false := by
        show (gr.getD p.1 []).getD p.2 false = false
        rw [getD_of_length_le _ _ _ (Nat.le_of_not_lt h2)]
      rw [this]
      rfl
  · show ((remove_small_objects gr s).getD p.1 []).getD p.2 false = _
    rw [getD_of_length_le (remove_small_objects gr s) p.1 []
      (by rw [remove_small_objects_length]; exact Nat.le_of_not_lt h1)]
    have : getCellB gr p = false := by
      show (gr.getD p.1 []).getD p.2 false = false
      rw [getD_of_length_le gr p.1 [] (Nat.le_of_not_lt h1)]
      rfl
    rw [this]
    rfl

lemma fg_of_remove_small_objects {gr : List (List Bool)} {s : ℕ} {p : ℕ × ℕ}
    (h : getCellB (remove_small_objects gr s) p = true) :
    getCellB gr p = true ∧ s ≤ compCard gr p := by
  rw [getCellB_remove_small_objects, Bool.and_eq_true, decide_eq_true_eq] at h
  exact h

lemma remove_small_objects_fg_of_conn {gr : List (List Bool)} {s : ℕ} {p r : ℕ × ℕ}
    (hp : getCellB (remove_small_objects gr s) p = true) (h : GridConn gr p r) :
    getCellB (remove_small_objects gr s) r = true := by
  obtain ⟨hfg, hs⟩ := fg_of_remove_small_objects hp
  have hfr : getCellB gr r = true := gridConn_fg_right hfg h
  rw [getCellB_remove_small_objects, hfr, Bool.true_and, decide_eq_true_eq,
    ← compCard_congr hfg h]
  exact hs

lemma gridConn_remove_small_objects_iff {gr : List (List Bool)} {s : ℕ} {p : ℕ × ℕ}
    (hp : getCellB (remove_small_objects gr s) p = true) (q : ℕ × ℕ) :
    GridConn (remove_small_objects gr s) p q ↔ GridConn gr p q := by
  constructor
  · exact Relation.ReflTransGen.mono
      (fun a b hab => ⟨(fg_of_remove_small_objects hab.1).1,
        (fg_of_remove_small_objects hab.2.1).1, hab.2.2⟩)
  · intro h
    induction h with
    | refl => exact Relation.ReflTransGen.refl
    | tail hpr hstep ih =>
      exact Relation.ReflTransGen.tail ih
        ⟨remove_small_objects_fg_of_conn hp hpr,
          remove_small_objects_fg_of_conn hp (Relation.ReflTransGen.tail hpr hstep),
          hstep.2.2⟩

lemma compCard_remove_small_objects {gr : List (List Bool)} {s : ℕ} {p : ℕ × ℕ}
    (hp : getCellB (remove_small_objects gr s) p = true) :
    compCard (remove_small_objects gr s) p = compCard gr p := by
  have hfg := (fg_of_remove_small_objects hp).1
  have hiff : ∀ x, x ∈ reach (remove_small_objects gr s) p ↔ x ∈ reach gr p := by
    intro x
    rw [mem_reach_iff hp, mem_reach_iff hfg, gridConn_remove_small_objects_iff hp]
  exact List.Perm.length_eq
    ((List.perm_ext_iff_of_nodup (reach_nodup _ p) (reach_nodup gr p)).mpr hiff)

/-- Removing small objects twice, the second time with an equal or larger
size bound, is removing them once at the larger bound: removing whole
components leaves the remaining components untouched. -/
lemma remove_small_objects_getElem (gr : List (List Bool)) (s : ℕ) (i : ℕ)
    (h2 : i < (remove_small_objects gr s).length) :
    (remove_small_objects gr s)[i] =
      (List.range (gr.getD i []).length).map
        (fun j => getCellB gr (i, j) && decide (s ≤ compCard gr (i, j))) := by
  unfold remove_small_objects at h2 ⊢
  rw [List.getElem_map, List.getElem_range]

/-- Removing small objects twice, the second time with an equal or larger
size bound, is removing them once at the larger bound: removing whole
components leaves the remaining components untouched. -/
lemma remove_small_objects_idem {gr : List (List Bool)} {a b : ℕ} (hab : a ≤ b) :
    remove_small_objects (remove_small_objects gr a) b = remove_small_objects gr b := by
  have hcell : ∀ p, (getCellB (remove_small_objects gr a) p &&
      decide (b ≤ compCard (remove_small_objects gr a) p)) =
      (getCellB gr p && decide (b ≤ compCard gr p)) := by
    intro p
    by_cases hfg : getCellB (remove_small_objects gr a) p = true
    · rw [compCard_remove_small_objects hfg, hfg, (fg_of_remove_small_objects hfg).1]
    · rw [Bool.not_eq_true] at hfg
      rw [hfg, Bool.false_and]
      rw [getCellB_remove_small_objects, Bool.and_eq_false_iff] at hfg
      rcases hfg with hfg | hcc
      · rw [hfg, Bool.false_and]
      · rw [decide_eq_false_iff_not, Nat.not_le] at hcc
        have hb : decide (b ≤ compCard gr p) = false := by
          rw [decide_eq_false_iff_not, Nat.not_le]
          omega
        rw [hb, Bool.and_false]
  refine List.ext_getElem ?_ ?_
  · rw [remove_small_objects_length, remove_small_objects_length,
      remove_small_objects_length]
  · intro i h1 h2
    have hi : i < gr.length := by
      rw [remove_small_objects_length, remove_small_objects_length] at h1
      exact h1
    rw [remove_small_objects_getElem _ _ _ h1, remove_small_objects_getElem _ _ _ h2,
      remove_small_objects_row gr a hi, List.length_map, List.length_range]
    refine List.map_congr_left ?_
    intro j _
    exact hcell (i, j)

/-! ### `filter_remove_small_objects` (transforms.py lines 143-149) -/

/-- `img_np.astype(bool)`: nonzero entries become `true`. -/
def binarizeN (gr : List (List ℕ)) : List (List Bool) :=
  gr.map (List.map (fun v => decide (v ≠ 0)))

/-- A boolean grid as a `uint8` 0/1 grid (how a boolean mask feeds back into
a transform that binarizes its input). -/
def natGridOfBool (gb : List (List Bool)) : List (List ℕ) :=
  gb.map (List.map (fun bv => if bv then 1 else 0))

lemma binarizeN_natGridOfBool (gb : List (List Bool)) : binarizeN (natGridOfBool gb) = gb := by
  unfold binarizeN natGridOfBool
  rw [List.map_map]
  have hrow : ∀ row : List Bool,
      (List.map (fun v : ℕ => decide (v ≠ 0)) ∘ List.map (fun bv => if bv then 1 else 0)) row
        = row := by
    intro row
    show List.map _ (List.map _ row) = row
    rw [List.map_map]
    have : ∀ bv : Bool,
        ((fun v : ℕ => decide (v ≠ 0)) ∘ fun bv => if bv then 1 else 0) bv = bv := by
      intro bv
      cases bv <;> rfl
    calc List.map _ row = List.map id row := List.map_congr_left (fun bv _ => this bv)
      _ = row := List.map_id row
  calc List.map _ gb = List.map id gb := List.map_congr_left (fun row _ => hrow row)
    _ = gb := List.map_id gb

/-- Python's `round(min_size / 2)` for a natural `min_size`: exact halving
for even input, banker's rounding (round half to even) for odd input. -/
def pyRoundHalfDiv2 (s : ℕ) : ℕ :=
  if s % 2 = 0 then s / 2
  else if (s / 2) % 2 = 0 then s / 2 else s / 2 + 1

lemma pyRoundHalfDiv2_lt {s : ℕ} (h : 1 ≤ s) : pyRoundHalfDiv2 s < s := by
  unfold pyRoundHalfDiv2
  split_ifs <;> omega

/-- The recursion of `filter_remove_small_objects` on the binarized input:
remove the small objects; if at least `overmask_thresh` percent of the cells
are *not* kept, `min_size ≥ 1` and `avoid_overmask` is set, retry on the
same input with `round(min_size / 2)`. -/
def filter_remove_small_objects_b (gb : List (List Bool)) (min_size : ℕ)
    (avoid_overmask : Bool) (overmask_thresh : ℚ) : List (List Bool) :=
  if h : overmask_thresh ≤ mask_percent (remove_small_objects gb min_size) ∧
      1 ≤ min_size ∧ avoid_overmask = true then
    filter_remove_small_objects_b gb (pyRoundHalfDiv2 min_size) avoid_overmask overmask_thresh
  else remove_small_objects gb min_size
termination_by min_size
decreasing_by exact pyRoundHalfDiv2_lt h.2.1

/-- `filter_remove_small_objects` (transforms.py lines 143-149): binarize
the input (`img_np.astype(bool)`) and run the self-adjusting small-object
removal. -/
def filter_remove_small_objects (img_np : List (List ℕ)) (min_size : ℕ)
    (avoid_overmask : Bool) (overmask_thresh : ℚ) : List (List Bool) :=
  filter_remove_small_objects_b (binarizeN img_np) min_size avoid_overmask overmask_thresh

/-- The size at which the recursion of `filter_remove_small_objects` stops. -/
def rsoFinalSize (gb : List (List Bool)) (min_size : ℕ) (ao : Bool) (ot : ℚ) : ℕ :=
  if h : ot ≤ mask_percent (remove_small_objects gb min_size) ∧
      1 ≤ min_size ∧ ao = true then
    rsoFinalSize gb (pyRoundHalfDiv2 min_size) ao ot
  else min_size
termination_by min_size
decreasing_by exact pyRoundHalfDiv2_lt h.2.1

lemma rso_master : ∀ (s : ℕ) (gb : List (List Bool)) (ao : Bool) (ot : ℚ),
    filter_remove_small_objects_b gb s ao ot
      = remove_small_objects gb (rsoFinalSize gb s ao ot)
    ∧ rsoFinalSize gb s ao ot ≤ s := by
  intro s
  induction s using Nat.strong_induction_on with
  | _ s ih =>
    intro gb ao ot
    by_cases hc : ot ≤ mask_percent (remove_small_objects gb s) ∧ 1 ≤ s ∧ ao = true
    · rw [filter_remove_small_objects_b, rsoFinalSize, dif_pos hc, dif_pos hc]
      obtain ⟨h1, h2⟩ := ih (pyRoundHalfDiv2 s) (pyRoundHalfDiv2_lt hc.2.1) gb ao ot
      exact ⟨h1, le_trans h2 (le_of_lt (pyRoundHalfDiv2_lt hc.2.1))⟩
    · rw [filter_remove_small_objects_b, rsoFinalSize, dif_neg hc, dif_neg hc]
      exact ⟨rfl, le_rfl⟩

lemma rso_idem_aux : ∀ (s : ℕ) (gb : List (List Bool)) (ao : Bool) (ot : ℚ),
    filter_remove_small_objects_b
        (remove_small_objects gb (rsoFinalSize gb s ao ot)) s ao ot
      = filter_remove_small_objects_b gb s ao ot := by
  intro s
  induction s using Nat.strong_induction_on with
  | _ s ih =>
    intro gb ao ot
    by_cases hc : ot ≤ mask_percent (remove_small_objects gb s) ∧ 1 ≤ s ∧ ao = true
    · have hlt := pyRoundHalfDiv2_lt hc.2.1
      rw [rsoFinalSize, dif_pos hc]
      have hts : rsoFinalSize gb (pyRoundHalfDiv2 s) ao ot ≤ s := by
        have := (rso_master (pyRoundHalfDiv2 s) gb ao ot).2
        omega
      have hyr : remove_small_objects
          (remove_small_objects gb (rsoFinalSize gb (pyRoundHalfDiv2 s) ao ot)) s
          = remove_small_objects gb s := remove_small_objects_idem hts
      conv_rhs => rw [filter_remove_small_objects_b]
      rw [dif_pos hc]
      conv_lhs => rw [filter_remove_small_objects_b]
      rw [hyr, dif_pos hc]
      exact ih (pyRoundHalfDiv2 s) hlt gb ao ot
    · rw [rsoFinalSize, dif_neg hc]
      have hyr : remove_small_objects (remove_small_objects gb s) s
          = remove_small_objects gb s := remove_small_objects_idem le_rfl
      conv_rhs => rw [filter_remove_small_objects_b]
      rw [dif_neg hc]
      conv_lhs => rw [filter_remove_small_objects_b]
      rw [hyr, dif_neg hc]

/-! ### Claim C5: the recursive threshold adjustments terminate -/

/-- C5: both self-adjusting recursions are total functions of the embedding
(so they terminate and cannot raise), and each returns the plain
single-parameter mask at some final parameter: `filter_green_channel`
returns the green mask at a final threshold that either equals the starting
one or moved strictly upward and is capped at 255, and
`filter_remove_small_objects` returns `remove_small_objects` of the
binarized input at a final size that moved downward from the starting
`min_size`. -/
theorem C5_termination :
    (∀ (img : List (List RGB)) (t : ℤ) (ao : Bool) (ot : ℚ),
      ∃ t2 : ℤ, t ≤ t2 ∧ (t2 = t ∨ (t < t2 ∧ t2 ≤ 255)) ∧
        filter_green_channel img t ao ot = greenMask img t2)
    ∧ (∀ (img_np : List (List ℕ)) (s : ℕ) (ao : Bool) (ot : ℚ),
        ∃ s2, s2 ≤ s ∧
          filter_remove_small_objects img_np s ao ot
            = remove_small_objects (binarizeN img_np) s2) := by
  constructor
  · intro img t ao ot
    exact ⟨finalGreenThresh img t ao ot, finalGreenThresh_ge img t ao ot,
      finalGreenThresh_cases img t ao ot, filter_green_channel_eq img t ao ot⟩
  · intro img s ao ot
    exact ⟨rsoFinalSize (binarizeN img) s ao ot,
      (rso_master s (binarizeN img) ao ot).2,
      (rso_master s (binarizeN img) ao ot).1⟩

/-! ### Claim C6: idempotence of `filter_remove_small_objects` -/

/-- C6: re-applying `filter_remove_small_objects` (same parameters, default
`avoid_overmask` and 95 % threshold) to its own output returns that output,
under the claim's hypothesis that `min_size` has dropped below 1 or the kept
fraction of the output is below the 95 % overmask threshold.  (The proof
factors through the unconditional statement: the output is the small-object
removal at the final size, and removing whole components does not disturb
the remaining components.) -/
theorem C6_idempotent :
    ∀ (img_np : List (List ℕ)) (min_size : ℕ),
      (min_size < 1 ∨
        100 - mask_percent (filter_remove_small_objects img_np min_size true 95) < 95) →
      filter_remove_small_objects
          (natGridOfBool (filter_remove_small_objects img_np min_size true 95))
          min_size true 95
        = filter_remove_small_objects img_np min_size true 95 := by
  intro img s _hyp
  unfold filter_remove_small_objects
  rw [binarizeN_natGridOfBool, (rso_master s (binarizeN img) true 95).1,
    rso_idem_aux s (binarizeN img) true 95, (rso_master s (binarizeN img) true 95).1]

/-- C6 witness: the theorem applied to a concrete 2×2 mask with
`min_size = 0` (so the first disjunct of the hypothesis holds). -/
theorem C6_witness :
    ((0 : ℕ) < 1 ∨
      100 - mask_percent (filter_remove_small_objects [[1, 0], [0, 0]] 0 true 95) < 95)
    ∧ filter_remove_small_objects
          (natGridOfBool (filter_remove_small_objects [[1, 0], [0, 0]] 0 true 95)) 0 true 95
        = filter_remove_small_objects [[1, 0], [0, 0]] 0 true 95 :=
  ⟨Or.inl (by decide), C6_idempotent [[1, 0], [0, 0]] 0 (Or.inl (by decide))⟩

/-! ### Claim C2: `PostFilterLabeld` (transforms.py lines 181-192) -/

/-- Complement of a boolean grid (`np.logical_not`). -/
def complementGrid (gb : List (List Bool)) : List (List Bool) :=
  gb.map (List.map (fun bv => !bv))

/-- Whether a list of positions contains a cell on the border of the grid
(first or last row, first or last column). -/
def touchesBorder (gb : List (List Bool)) (cells : List (ℕ × ℕ)) : Bool :=
  cells.any (fun q => decide (q.1 = 0) || decide (q.2 = 0) ||
    decide (q.1 + 1 = gb.length) || decide (q.2 + 1 = (gb.getD q.1 []).length))

/-- Modelled from the spec: the morphology collaborator
`remove_small_holes(mask, area_threshold)` (spec §6, §4.3; skimage) is not
part of this repository.  Per the spec it fills small holes: a background
cell becomes foreground when its background component (4-connectivity in the
complement) is fully enclosed (touches no border of the array) and has fewer
than `area_threshold` cells. -/
def remove_small_holes (gb : List (List Bool)) (area_threshold : ℕ) : List (List Bool) :=
  (List.range gb.length).map (fun i =>
    (List.range (gb.getD i []).length).map (fun j =>
      getCellB gb (i, j) ||
        (!touchesBorder gb (reach (complementGrid gb) (i, j)) &&
          decide (compCard (complementGrid gb) (i, j) < area_threshold))))

/-- Modelled from the spec: the morphology collaborator
`binary_fill_holes(mask)` (spec §6, §4.3; scipy) is not part of this
repository.  Per the spec it fills every fully enclosed hole: a background
cell becomes foreground unless its background component reaches the border
of the array. -/
def binary_fill_holes (gb : List (List Bool)) : List (List Bool) :=
  (List.range gb.length).map (fun i =>
    (List.range (gb.getD i []).length).map (fun j =>
      getCellB gb (i, j) || !touchesBorder gb (reach (complementGrid gb) (i, j))))

/-- `PostFilterLabeld.__call__` (transforms.py lines 181-192) for one key:
cast the label to `uint8` and binarize, optionally fill small holes (when
`min_hole` is nonzero/truthy), fill all enclosed holes, optionally remove
small objects (when `min_size` is nonzero/truthy), and finally restrict the
*original* label values to the surviving mask
(`np.where(label > 0, d[key], 0)`). -/
def PostFilterLabeld_call (min_size min_hole : ℕ) (label : List (List ℕ)) : List (List ℕ) :=
  let b0 := binarizeN (label.map (List.map (fun v => v % 256)))
  let b1 := if min_hole ≠ 0 then remove_small_holes b0 min_hole else b0
  let b2 := binary_fill_holes b1
  let b3 := if min_size ≠ 0 then remove_small_objects b2 min_size else b2
  List.zipWith (List.zipWith (fun m v => if m then v else 0)) b3 label

/-- The binarized `uint8` cast of the label: `d[key].astype(np.uint8)`
viewed as the boolean foreground mask the morphology starts from. -/
def uint8Mask (label : List (List ℕ)) : List (List Bool) :=
  binarizeN (label.map (List.map (fun v => v % 256)))

/-- The morphological mask of `PostFilterLabeld` after the hole-filling
steps: optional `remove_small_holes`, then the unconditional
`binary_fill_holes`. -/
def postFillMask (min_hole : ℕ) (label : List (List ℕ)) : List (List Bool) :=
  binary_fill_holes
    (if min_hole ≠ 0 then remove_small_holes (uint8Mask label) min_hole else uint8Mask label)

/-- The surviving morphological mask of `PostFilterLabeld`: the hole-filled
mask with small objects removed when `min_size` is enabled. -/
def postFilterMask (min_size min_hole : ℕ) (label : List (List ℕ)) : List (List Bool) :=
  if min_size ≠ 0 then remove_small_objects (postFillMask min_hole label) min_size
  else postFillMask min_hole label

lemma PostFilterLabeld_call_eq (min_size min_hole : ℕ) (label : List (List ℕ)) :
    PostFilterLabeld_call min_size min_hole label =
      List.zipWith (List.zipWith (fun m v => if m then v else 0))
        (postFilterMask min_size min_hole label) label := rfl

/-- The row lengths of a grid (its `ndarray` shape information). -/
def gridShape {α : Type} (gr : List (List α)) : List ℕ := gr.map List.length

lemma gridShape_mapmap {α β : Type} (f : α → β) (gr : List (List α)) :
    gridShape (gr.map (List.map f)) = gridShape gr := by
  unfold gridShape
  rw [List.map_map]
  exact List.map_congr_left (fun row _ => by simp)

lemma gridShape_rangeMap {α : Type} (gr : List (List α)) (F : ℕ → ℕ → Bool) :
    gridShape ((List.range gr.length).map
      (fun i => (List.range (gr.getD i []).length).map (fun j => F i j))) = gridShape gr := by
  unfold gridShape
  refine List.ext_getElem (by simp) ?_
  intro i h1 h2
  have hi : i < gr.length := by simpa using h2
  rw [List.getElem_map, List.getElem_map, List.getElem_map, List.getElem_range,
    List.length_map, List.length_range, getD_of_lt _ _ _ hi]

lemma length_eq_of_gridShape {α β : Type} {a : List (List α)} {b : List (List β)}
    (h : gridShape a = gridShape b) : a.length = b.length := by
  have := congrArg List.length h
  simpa [gridShape] using this

lemma getD_length_eq_of_gridShape {α β : Type} {a : List (List α)} {b : List (List β)}
    (h : gridShape a = gridShape b) (i : ℕ) :
    (a.getD i []).length = (b.getD i []).length := by
  have hlen := length_eq_of_gridShape h
  by_cases hi : i < a.length
  · have hib : i < b.length := by omega
    rw [getD_of_lt _ _ _ hi, getD_of_lt _ _ _ hib]
    have h2 : (List.map List.length a)[i]? = (List.map List.length b)[i]? := by
      unfold gridShape at h
      rw [h]
    rw [List.getElem?_map, List.getElem?_map, List.getElem?_eq_getElem hi,
      List.getElem?_eq_getElem hib] at h2
    simpa using h2
  · rw [getD_of_length_le _ _ _ (Nat.le_of_not_lt hi),
      getD_of_length_le _ _ _ (by omega)]
    rfl

lemma bounds_of_gridShape {α β : Type} {a : List (List α)} {b : List (List β)}
    (h : gridShape a = gridShape b) {p : ℕ × ℕ}
    (h1 : p.1 < a.length) (h2 : p.2 < (a.getD p.1 []).length) :
    p.1 < b.length ∧ p.2 < (b.getD p.1 []).length := by
  have hlen := length_eq_of_gridShape h
  have hrow := getD_length_eq_of_gridShape h p.1
  omega

lemma gridShape_remove_small_holes (g : List (List Bool)) (t : ℕ) :
    gridShape (remove_small_holes g t) = gridShape g := by
  unfold remove_small_holes
  exact gridShape_rangeMap g _

lemma gridShape_binary_fill_holes (g : List (List Bool)) :
    gridShape (binary_fill_holes g) = gridShape g := by
  unfold binary_fill_holes
  exact gridShape_rangeMap g _

lemma gridShape_remove_small_objects (g : List (List Bool)) (s : ℕ) :
    gridShape (remove_small_objects g s) = gridShape g := by
  unfold remove_small_objects
  exact gridShape_rangeMap g _

lemma gridShape_uint8Mask (label : List (List ℕ)) :
    gridShape (uint8Mask label) = gridShape label := by
  unfold uint8Mask binarizeN
  rw [gridShape_mapmap, gridShape_mapmap]

lemma gridShape_preFill (min_hole : ℕ) (label : List (List ℕ)) :
    gridShape (if min_hole ≠ 0 then remove_small_holes (uint8Mask label) min_hole
      else uint8Mask label) = gridShape label := by
  split_ifs
  · rw [gridShape_remove_small_holes, gridShape_uint8Mask]
  · exact gridShape_uint8Mask label

lemma gridShape_postFillMask (min_hole : ℕ) (label : List (List ℕ)) :
    gridShape (postFillMask min_hole label) = gridShape label := by
  unfold postFillMask
  rw [gridShape_binary_fill_holes]
  exact gridShape_preFill min_hole label

lemma gridShape_postFilterMask (min_size min_hole : ℕ) (label : List (List ℕ)) :
    gridShape (postFilterMask min_size min_hole label) = gridShape label := by
  unfold postFilterMask
  split_ifs
  · rw [gridShape_remove_small_objects]
    exact gridShape_postFillMask min_hole label
  · exact gridShape_postFillMask min_hole label

lemma getCellB_remove_small_holes (g : List (List Bool)) (t : ℕ) {p : ℕ × ℕ}
    (h1 : p.1 < g.length) (h2 : p.2 < (g.getD p.1 []).length) :
    getCellB (remove_small_holes g t) p =
      (getCellB g p ||
        (!touchesBorder g (reach (complementGrid g) p) &&
          decide (compCard (complementGrid g) p < t))) := by
  show ((remove_small_holes g t).getD p.1 []).getD p.2 false = _
  unfold remove_small_holes
  rw [getD_range_map _ _ _ _ h1, getD_range_map _ _ _ _ h2]

lemma getCellB_binary_fill_holes (g : List (List Bool)) {p : ℕ × ℕ}
    (h1 : p.1 < g.length) (h2 : p.2 < (g.getD p.1 []).length) :
    getCellB (binary_fill_holes g) p =
      (getCellB g p || !touchesBorder g (reach (complementGrid g) p)) := by
  show ((binary_fill_holes g).getD p.1 []).getD p.2 false = _
  unfold binary_fill_holes
  rw [getD_range_map _ _ _ _ h1, getD_range_map _ _ _ _ h2]

lemma remove_small_holes_le (g : List (List Bool)) (t : ℕ) {x : ℕ × ℕ}
    (hx : getCellB g x = true) : getCellB (remove_small_holes g t) x = true := by
  obtain ⟨hb1, hb2⟩ := getCellB_bounds hx
  rw [getCellB_remove_small_holes g t hb1 hb2, hx]
  rfl

lemma getCellB_complementGrid (g : List (List Bool)) (p : ℕ × ℕ) :
    getCellB (complementGrid g) p = true ↔
      (p.1 < g.length ∧ p.2 < (g.getD p.1 []).length ∧ getCellB g p = false) := by
  unfold complementGrid
  by_cases h1 : p.1 < g.length
  · have h1' : p.1 < (g.map (List.map (fun bv => !bv))).length := by simpa using h1
    show ((g.map (List.map fun bv => !bv)).getD p.1 []).getD p.2 false = true ↔ _
    rw [getD_of_lt _ _ _ h1', List.getElem_map]
    by_cases h2 : p.2 < (g[p.1]).length
    · have h2' : p.2 < ((g[p.1]).map (fun bv => !bv)).length := by simpa using h2
      rw [getD_of_lt _ _ _ h2', List.getElem_map]
      have hcell : getCellB g p = g[p.1][p.2] := by
        show (g.getD p.1 []).getD p.2 false = _
        rw [getD_of_lt _ _ _ h1, getD_of_lt _ _ _ h2]
      constructor
      · intro hnot
        rw [Bool.not_eq_true'] at hnot
        exact ⟨h1, by rw [getD_of_lt _ _ _ h1]; exact h2, by rw [hcell]; exact hnot⟩
      · rintro ⟨-, -, hfalse⟩
        rw [hcell] at hfalse
        rw [hfalse]
        rfl
    · rw [getD_of_length_le _ _ _ (by simpa using Nat.le_of_not_lt h2)]
      constructor
      · intro hf
        cases hf
      · rintro ⟨-, hb, -⟩
        rw [getD_of_lt _ _ _ h1] at hb
        exact absurd hb h2
  · show ((g.map (List.map fun bv => !bv)).getD p.1 []).getD p.2 false = true ↔ _
    rw [getD_of_length_le (g.map (List.map fun bv => !bv)) p.1 []
      (by simpa using Nat.le_of_not_lt h1)]
    constructor
    · intro hf
      simp at hf
    · rintro ⟨ha, -, -⟩
      exact absurd ha h1

lemma touchesBorder_congr {a b : List (List Bool)} (h : gridShape a = gridShape b)
    (cells : List (ℕ × ℕ)) : touchesBorder a cells = touchesBorder b cells := by
  unfold touchesBorder
  have hfun : (fun q : ℕ × ℕ => decide (q.1 = 0) || decide (q.2 = 0) ||
      decide (q.1 + 1 = a.length) || decide (q.2 + 1 = (a.getD q.1 []).length)) =
      (fun q : ℕ × ℕ => decide (q.1 = 0) || decide (q.2 = 0) ||
      decide (q.1 + 1 = b.length) || decide (q.2 + 1 = (b.getD q.1 []).length)) := by
    funext q
    rw [length_eq_of_gridShape h, getD_length_eq_of_gridShape h q.1]
  rw [hfun]

/-- The value restriction of `PostFilterLabeld`: at every pixel, the zip of
a mask of the same shape as the label against the label yields the original
value on the mask and 0 off it (also off the grid). -/
lemma zip_mask_cell (mask : List (List Bool)) (label : List (List ℕ))
    (hsh : gridShape mask = gridShape label) (p : ℕ × ℕ) :
    getCellN (List.zipWith (List.zipWith (fun m v => if m then v else 0)) mask label) p
      = if getCellB mask p = true then getCellN label p else 0 := by
  by_cases hm : getCellB mask p = true
  · rw [if_pos hm]
    obtain ⟨hb1, hb2⟩ := getCellB_bounds hm
    obtain ⟨hc1, hc2⟩ := bounds_of_gridShape hsh hb1 hb2
    have hz1 : p.1 <
        (List.zipWith (List.zipWith (fun m v => if m then v else 0)) mask label).length := by
      rw [List.length_zipWith, lt_min_iff]
      exact ⟨hb1, hc1⟩
    unfold getCellN
    rw [getD_of_lt _ _ _ hz1, List.getElem_zipWith]
    have hb2' : p.2 < (mask[p.1]).length := by
      rw [← getD_of_lt mask p.1 [] hb1]
      exact hb2
    have hc2' : p.2 < (label[p.1]).length := by
      rw [← getD_of_lt label p.1 [] hc1]
      exact hc2
    have hz2 : p.2 <
        (List.zipWith (fun m v => if m then v else 0) mask[p.1] label[p.1]).length := by
      rw [List.length_zipWith, lt_min_iff]
      exact ⟨hb2', hc2'⟩
    rw [getD_of_lt _ _ _ hz2, List.getElem_zipWith]
    have hmv : mask[p.1][p.2] = true := by
      unfold getCellB at hm
      rw [getD_of_lt _ _ _ hb1, getD_of_lt _ _ _ hb2'] at hm
      exact hm
    rw [hmv, if_pos rfl, getD_of_lt _ _ _ hc1, getD_of_lt _ _ _ hc2']
  · rw [if_neg hm]
    rw [Bool.not_eq_true] at hm
    by_cases hz1 : p.1 <
        (List.zipWith (List.zipWith (fun m v => if m then v else 0)) mask label).length
    · have hmb : p.1 < mask.length := by
        rw [List.length_zipWith, lt_min_iff] at hz1
        exact hz1.1
      have hlb : p.1 < label.length := by
        rw [List.length_zipWith, lt_min_iff] at hz1
        exact hz1.2
      unfold getCellN
      rw [getD_of_lt _ _ _ hz1, List.getElem_zipWith]
      by_cases hz2 : p.2 <
          (List.zipWith (fun m v => if m then v else 0) mask[p.1] label[p.1]).length
      · rw [getD_of_lt _ _ _ hz2, List.getElem_zipWith]
        have hmb2 : p.2 < (mask[p.1]).length := by
          rw [List.length_zipWith, lt_min_iff] at hz2
          exact hz2.1
        have hmv : mask[p.1][p.2] = false := by
          unfold getCellB at hm
          rw [getD_of_lt _ _ _ hmb, getD_of_lt _ _ _ hmb2] at hm
          exact hm
        rw [hmv]
        rfl
      · rw [getD_of_length_le _ _ _ (Nat.le_of_not_lt hz2)]
    · unfold getCellN
      rw [getD_of_length_le _ _ _ (Nat.le_of_not_lt hz1)]
      rfl

/-- `binary_fill_holes` fills a fully enclosed hole of the original mask
even after an earlier filling pass has grown the foreground: if `g1` lies
above `g0` pointwise (same shape) and `p` is a background cell of `g0`
whose background component touches no border, then `p` is foreground after
`binary_fill_holes g1`. -/
lemma bfh_fills_enclosed {g0 g1 : List (List Bool)}
    (hsh : gridShape g0 = gridShape g1)
    (hle : ∀ x, getCellB g0 x = true → getCellB g1 x = true)
    {p : ℕ × ℕ} (h1 : p.1 < g0.length) (h2 : p.2 < (g0.getD p.1 []).length)
    (hbg : getCellB g0 p = false)
    (hencl : touchesBorder g0 (reach (complementGrid g0) p) = false) :
    getCellB (binary_fill_holes g1) p = true := by
  obtain ⟨hc1, hc2⟩ := bounds_of_gridShape hsh h1 h2
  rw [getCellB_binary_fill_holes g1 hc1 hc2]
  by_cases hfg : getCellB g1 p = true
  · rw [hfg]
    rfl
  · rw [Bool.not_eq_true] at hfg
    rw [hfg]
    suffices htb : touchesBorder g1 (reach (complementGrid g1) p) = false by
      rw [htb]
      rfl
    have hfg1 : getCellB (complementGrid g1) p = true :=
      (getCellB_complementGrid g1 p).mpr ⟨hc1, hc2, hfg⟩
    have hfg0 : getCellB (complementGrid g0) p = true :=
      (getCellB_complementGrid g0 p).mpr ⟨h1, h2, hbg⟩
    have hcomp : ∀ x, getCellB (complementGrid g1) x = true →
        getCellB (complementGrid g0) x = true := by
      intro x hx
      obtain ⟨hx1, hx2, hx3⟩ := (getCellB_complementGrid g1 x).mp hx
      obtain ⟨hy1, hy2⟩ := bounds_of_gridShape hsh.symm hx1 hx2
      refine (getCellB_complementGrid g0 x).mpr ⟨hy1, hy2, ?_⟩
      cases hg0v : getCellB g0 x with
      | false => rfl
      | true =>
        rw [hle x hg0v] at hx3
        cases hx3
    have hconn : ∀ q, GridConn (complementGrid g1) p q → GridConn (complementGrid g0) p q :=
      fun q => Relation.ReflTransGen.mono
        (fun a b hab => ⟨hcomp a hab.1, hcomp b hab.2.1, hab.2.2⟩)
    have hsub : ∀ q ∈ reach (complementGrid g1) p, q ∈ reach (complementGrid g0) p := by
      intro q hq
      exact (mem_reach_iff hfg0 q).mpr (hconn q ((mem_reach_iff hfg1 q).mp hq))
    rw [touchesBorder_congr hsh.symm]
    unfold touchesBorder at hencl ⊢
    rw [List.any_eq_false] at hencl ⊢
    intro q hq
    exact hencl q (hsub q hq)

/-- The 3×3 label with value 5 and one fully enclosed one-pixel hole. -/
def ringC2 : List (List ℕ) := [[5, 5, 5], [5, 0, 5], [5, 5, 5]]

/-- C2 counterexample: the claim says a label map with one fully enclosed
hole smaller than `min_hole` "becomes fully filled".  The final line of the
transform writes `np.where(mask > 0, original, 0)`, so a filled hole keeps
its *original* value 0: on `ringC2` (hole of size 1 < min_hole = 2,
min_size = 1) the surviving mask is all-true, yet the returned map equals
the input and still carries 0 at the hole pixel (1,1) — it does not become
fully filled. -/
theorem C2_counterexample :
    PostFilterLabeld_call 1 2 ringC2 = ringC2
    ∧ getCellN (PostFilterLabeld_call 1 2 ringC2) (1, 1) = 0 :=
  ⟨by decide, by decide⟩

/-- C2 (amended): for every integer label map, the output of
`PostFilterLabeld` at every pixel is the original label value if the pixel
lies in the surviving morphological mask and 0 otherwise (so unaffected,
possibly multi-valued components keep their original values, and everything
outside the mask becomes 0); a fully enclosed hole of the binarized label
(in particular one smaller than `min_hole`) joins the hole-filled mask — but
by the first clause the returned map keeps the original value 0 at such
pixels, so the label map does not "become fully filled" (`ringC2` comes back
unchanged); and when `min_size` is enabled, every pixel whose hole-filled
component has fewer than `min_size` cells is set to 0 (small connected
components are removed entirely; `[[5,5,0,7]]` with `min_size = 2` becomes
`[[5,5,0,0]]`). -/
theorem C2_post_filter_amended :
    (∀ (min_size min_hole : ℕ) (label : List (List ℕ)) (p : ℕ × ℕ),
      getCellN (PostFilterLabeld_call min_size min_hole label) p =
        if getCellB (postFilterMask min_size min_hole label) p = true
        then getCellN label p else 0)
    ∧ (∀ (min_hole : ℕ) (label : List (List ℕ)) (p : ℕ × ℕ),
        p.1 < label.length → p.2 < (label.getD p.1 []).length →
        getCellB (uint8Mask label) p = false →
        touchesBorder (uint8Mask label)
          (reach (complementGrid (uint8Mask label)) p) = false →
        getCellB (postFillMask min_hole label) p = true)
    ∧ (∀ (min_size min_hole : ℕ) (label : List (List ℕ)) (p : ℕ × ℕ),
        min_size ≠ 0 →
        compCard (postFillMask min_hole label) p < min_size →
        getCellN (PostFilterLabeld_call min_size min_hole label) p = 0)
    ∧ PostFilterLabeld_call 1 2 ringC2 = ringC2
    ∧ PostFilterLabeld_call 2 1 [[5, 5, 0, 7]] = [[5, 5, 0, 0]] := by
  have hA : ∀ (ms mh : ℕ) (label : List (List ℕ)) (p : ℕ × ℕ),
      getCellN (PostFilterLabeld_call ms mh label) p =
        if getCellB (postFilterMask ms mh label) p = true
        then getCellN label p else 0 := by
    intro ms mh label p
    rw [PostFilterLabeld_call_eq]
    exact zip_mask_cell _ _ (gridShape_postFilterMask ms mh label) p
  refine ⟨hA, ?_, ?_, by decide, by decide⟩
  · intro mh label p h1 h2 hbg hencl
    obtain ⟨hb1, hb2⟩ := bounds_of_gridShape (gridShape_uint8Mask label).symm h1 h2
    unfold postFillMask
    refine bfh_fills_enclosed ?_ ?_ hb1 hb2 hbg hencl
    · rw [gridShape_preFill, gridShape_uint8Mask]
    · intro x hx
      split_ifs
      · exact remove_small_holes_le _ _ hx
      · exact hx
  · intro ms mh label p hms hcc
    rw [hA ms mh label p]
    have hmf : getCellB (postFilterMask ms mh label) p = false := by
      unfold postFilterMask
      rw [if_pos hms, getCellB_remove_small_objects]
      have hd : decide (ms ≤ compCard (postFillMask mh label) p) = false := by
        rw [decide_eq_false_iff_not]
        omega
      rw [hd, Bool.and_false]
    rw [hmf]
    rfl

/-- C2 witness: the hole clause applied to `ringC2` at the hole pixel
(1,1) with `min_hole = 2`, and the small-component clause applied to
`[[5,5,0,7]]` at the one-pixel component (0,3) with `min_size = 2`. -/
theorem C2_witness :
    ((1, 1).1 < ringC2.length
    ∧ (1, 1).2 < (ringC2.getD (1, 1).1 []).length
    ∧ getCellB (uint8Mask ringC2) (1, 1) = false
    ∧ touchesBorder (uint8Mask ringC2)
        (reach (complementGrid (uint8Mask ringC2)) (1, 1)) = false
    ∧ getCellB (postFillMask 2 ringC2) (1, 1) = true)
    ∧ ((2 : ℕ) ≠ 0
    ∧ compCard (postFillMask 1 [[5, 5, 0, 7]]) (0, 3) < 2
    ∧ getCellN (PostFilterLabeld_call 2 1 [[5, 5, 0, 7]]) (0, 3) = 0) := by
  constructor
  · refine ⟨by decide, by decide, by decide, by decide, ?_⟩
    exact C2_post_filter_amended.2.1 2 ringC2 (1, 1) (by decide) (by decide) (by decide)
      (by decide)
  · refine ⟨by decide, by decide, ?_⟩
    exact C2_post_filter_amended.2.2.1 2 1 [[5, 5, 0, 7]] (0, 3) (by decide) (by decide)

/-! ### Claim C1: `gen_instance_map` (transforms.py lines 347-357) -/

/-- Whether the translated local mask of one object covers the global pixel
`p`: some in-range position `q` of the mask holds a positive value and
translates onto `p` (rows shifted by the bounding box's second coordinate,
columns by its first — lines 352-353). -/
def coveredBy (mask : List (List ℕ)) (bb : ℕ × ℕ) (p : ℕ × ℕ) : Bool :=
  (allPos mask).any (fun q => decide (0 < getCellN mask q) &&
    decide (p.1 = q.1 + bb.2) && decide (p.2 = q.2 + bb.1))

/-- The class value written for object `i` when flattening:
`pred_classes[i] if pred_classes and i < len(pred_classes) else 1`
(line 355; an absent or empty list and an out-of-range index give 1). -/
def instClassVal (pred_classes : Option (List ℕ)) (i : ℕ) : ℕ :=
  match pred_classes with
  | none => 1
  | some l => if i < l.length then l.getD i 0 else 1

/-- The value written for object `i`: the class value when `flatten`, else
the 1-based object index (line 356). -/
def objValue (flatten : Bool) (pred_classes : Option (List ℕ)) (i : ℕ) : ℕ :=
  if flatten then instClassVal pred_classes i else i + 1

/-- The pixel values of the instance map after all objects are written: a
fold of last-write-wins updates over the object list starting from the
all-zero canvas; each write stores the object's value reduced mod 2^16
(the canvas dtype is `uint16`). -/
def instanceMapFun (masks : List (List (List ℕ))) (bbs : List (ℕ × ℕ))
    (flatten : Bool) (pred_classes : Option (List ℕ)) : ℕ × ℕ → ℕ :=
  (List.range masks.length).foldl
    (fun acc i => fun q =>
      if coveredBy (masks.getD i []) (bbs.getD i (0, 0)) q then
        objValue flatten pred_classes i % 65536
      else acc q)
    (fun _ => 0)

/-- `NuClickPostFilterLabelExd.gen_instance_map` (transforms.py lines
347-357): the m×n `uint16` canvas with every object's translated foreground
written in list order. -/
def gen_instance_map (masks : List (List (List ℕ))) (bbs : List (ℕ × ℕ)) (m n : ℕ)
    (flatten : Bool) (pred_classes : Option (List ℕ)) : List (List ℕ) :=
  (List.range m).map (fun r =>
    (List.range n).map (fun c => instanceMapFun masks bbs flatten pred_classes (r, c)))

lemma lastWriteWins (C : ℕ → (ℕ × ℕ) → Bool) (v : ℕ → ℕ) :
    ∀ (k : ℕ) (p : ℕ × ℕ),
      ((∀ i, i < k → C i p = false) →
        ((List.range k).foldl (fun acc i => fun q => if C i q then v i else acc q)
          (fun _ => 0)) p = 0)
      ∧ (∀ i, i < k → C i p = true → (∀ j, i < j → j < k → C j p = false) →
          ((List.range k).foldl (fun acc i => fun q => if C i q then v i else acc q)
            (fun _ => 0)) p = v i) := by
  intro k
  induction k with
  | zero =>
    intro p
    exact ⟨fun _ => rfl, fun i hi => absurd hi (by omega)⟩
  | succ k ih =>
    intro p
    constructor
    · intro hnone
      rw [List.range_succ, List.foldl_append]
      show (if C k p then v k else _) = 0
      rw [if_neg (by rw [hnone k (by omega)]; exact Bool.false_ne_true)]
      exact (ih p).1 (fun i hi => hnone i (by omega))
    · intro i hi hC hlater
      rw [List.range_succ, List.foldl_append]
      show (if C k p then v k else _) = v i
      by_cases hik : i = k
      · subst hik
        rw [if_pos hC]
      · have hik' : i < k := by omega
        rw [if_neg (by rw [hlater k (by omega) (by omega)]; exact Bool.false_ne_true)]
        exact (ih p).2 i hik' hC (fun j h1 h2 => hlater j h1 (by omega))

lemma getCellN_gen_instance_map {masks : List (List (List ℕ))} {bbs : List (ℕ × ℕ)}
    {m n : ℕ} {flatten : Bool} {pc : Option (List ℕ)} {p : ℕ × ℕ}
    (h1 : p.1 < m) (h2 : p.2 < n) :
    getCellN (gen_instance_map masks bbs m n flatten pc) p
      = instanceMapFun masks bbs flatten pc p := by
  unfold gen_instance_map getCellN
  rw [getD_range_map _ _ _ _ h1, getD_range_map _ _ _ _ h2]

/-- C1 counterexample: with two one-pixel masks at the same offset,
`flatten = True` (the default) and no `pred_classes`, the later object wins
and the code stores the default class value 1 — not the 1-based object
index 2 that the claim prescribes for the no-`pred_classes` case. -/
theorem C1_counterexample :
    getCellN (gen_instance_map [[[1]], [[1]]] [(0, 0), (0, 0)] 1 1 true none) (0, 0) = 1
    ∧ (1 : ℕ) ≠ 2 :=
  ⟨by decide, by decide⟩

/-- C1 (amended): on an m×n canvas, a pixel covered by no translated mask is
0; a pixel whose last covering object (in list order) is `i` holds, mod
2^16: when `flatten` is true, `pred_classes[i]` if a `pred_classes` list is
supplied with `i` in range and 1 otherwise; when `flatten` is false, the
1-based object index `i + 1`.  Later objects overwrite earlier ones. -/
theorem C1_instance_map_amended :
    ∀ (masks : List (List (List ℕ))) (bbs : List (ℕ × ℕ)) (m n : ℕ) (flatten : Bool)
      (pred_classes : Option (List ℕ)) (p : ℕ × ℕ),
      bbs.length = masks.length → p.1 < m → p.2 < n →
      ((∀ i, i < masks.length →
          coveredBy (masks.getD i []) (bbs.getD i (0, 0)) p = false) →
        getCellN (gen_instance_map masks bbs m n flatten pred_classes) p = 0)
      ∧ (∀ i, i < masks.length →
          coveredBy (masks.getD i []) (bbs.getD i (0, 0)) p = true →
          (∀ j, i < j → j < masks.length →
            coveredBy (masks.getD j []) (bbs.getD j (0, 0)) p = false) →
          getCellN (gen_instance_map masks bbs m n flatten pred_classes) p
            = objValue flatten pred_classes i % 65536) := by
  intro masks bbs m n flatten pc p _hlen h1 h2
  constructor
  · intro hnone
    rw [getCellN_gen_instance_map h1 h2]
    exact (lastWriteWins (fun i q => coveredBy (masks.getD i []) (bbs.getD i (0, 0)) q)
      (fun i => objValue flatten pc i % 65536) masks.length p).1 hnone
  · intro i hi hC hlater
    rw [getCellN_gen_instance_map h1 h2]
    exact (lastWriteWins (fun i q => coveredBy (masks.getD i []) (bbs.getD i (0, 0)) q)
      (fun i => objValue flatten pc i % 65536) masks.length p).2 i hi hC hlater

/-- C1 witness: the amended characterization applied to the two-object
example, where the last covering object is object 1. -/
theorem C1_witness :
    ([(0, 0), (0, 0)] : List (ℕ × ℕ)).length = ([[[1]], [[1]]] : List (List (List ℕ))).length
    ∧ coveredBy (([[[1]], [[1]]] : List (List (List ℕ))).getD 1 [])
        (([(0, 0), (0, 0)] : List (ℕ × ℕ)).getD 1 (0, 0)) (0, 0) = true
    ∧ getCellN (gen_instance_map [[[1]], [[1]]] [(0, 0), (0, 0)] 1 1 true none) (0, 0)
        = objValue true none 1 % 65536 := by
  refine ⟨by decide, by decide, ?_⟩
  exact (C1_instance_map_amended [[[1]], [[1]]] [(0, 0), (0, 0)] 1 1 true none (0, 0)
    (by decide) (by decide) (by decide)).2 1 (by decide) (by decide)
    (fun j hj1 hj2 => by
      simp only [List.length_cons, List.length_nil] at hj2
      exact absurd hj1 (by omega))
